import Mathlib

/-!
Verification of the position-to-AST-node resolver (`findNodeAtPosition`) and of
the XLIFF 2.0 translation serializer (`Xliff2TranslationSerializer`).

The resolver's implementation file (`hybrid_visitor.ts`) is not part of the
source excerpt (only its test specification is), so the resolver is modelled
from the specification's data model (spec sections 3 and 4) and its algorithm
description.  The serializer (`xliff2_translation_serializer.ts`) is present in
the sources and is embedded faithfully.
-/

set_option maxHeartbeats 1000000

/-- Modelled from the spec: a source span, a contiguous `[start, end)` offset
range into the original template text (`stop` stands for the exclusive `end`
offset; `end` is a reserved word). Offsets are non-negative, so `Nat`. -/
structure Span where
  start : Nat
  stop : Nat
deriving DecidableEq, Repr

/-- Modelled from the spec: position containment test, start inclusive and end
exclusive (spec rule 5). -/
def Span.containsPos (s : Span) (p : Nat) : Prop :=
  s.start ≤ p ∧ p < s.stop

instance (s : Span) (p : Nat) : Decidable (s.containsPos p) :=
  inferInstanceAs (Decidable (s.start ≤ p ∧ p < s.stop))

/-- Modelled from the spec: two spans are (positionally) disjoint when no
position lies inside both; sibling spans are assumed non-overlapping. -/
def Span.disj (a b : Span) : Prop :=
  ∀ p : Nat, ¬(a.containsPos p ∧ b.containsPos p)

/-- Modelled from the spec: the closed set of node variants of the two
grammars.  Template family: `{Element, TextAttribute, BoundAttribute,
BoundEvent, Reference, Variable, Content, Template, Text, Icu}`; expression
family: `{PropertyRead, SafePropertyRead, KeyedRead, PropertyWrite, KeyedWrite,
Binary, BindingPipe, MethodCall, SafeMethodCall, LiteralPrimitive,
LiteralArray, LiteralMap, Conditional, EmptyExpr, ImplicitReceiver}`.
`variableNode` stands for the `Variable` variant (`variable` is a reserved
word); `templateNode` for `Template`, `textNode` for `Text`. -/
inductive NodeKind where
  | element
  | textAttribute
  | boundAttribute
  | boundEvent
  | reference
  | variableNode
  | content
  | templateNode
  | textNode
  | icu
  | propertyRead
  | safePropertyRead
  | keyedRead
  | propertyWrite
  | keyedWrite
  | binary
  | bindingPipe
  | methodCall
  | safeMethodCall
  | literalPrimitive
  | literalArray
  | literalMap
  | conditional
  | emptyExpr
  | implicitReceiver
deriving DecidableEq, Repr

/-- Modelled from the spec: the two node families reported by the span
classifier. -/
inductive NodeFamily where
  | template
  | expression
deriving DecidableEq, Repr

mutual
/-- Modelled from the spec: an AST node of either grammar.  Each node carries
its variant tag, a source span, a name (empty when the variant has none) and
its child nodes.  The several child collections of a container (attributes,
bound attributes and events, references, variables, expression payloads,
element or template children) are flattened into one list kept in the spec's
document order, which is the order the resolver visits them in. -/
inductive Node where
  | mk (kind : NodeKind) (span : Span) (name : String) (children : NodeList)

/-- Modelled from the spec: an ordered sequence of sibling nodes. -/
inductive NodeList where
  | nil
  | cons (head : Node) (tail : NodeList)
end

/-- Variant tag of a node. -/
def Node.kind : Node → NodeKind
  | .mk k _ _ _ => k

/-- Source span of a node. -/
def Node.span : Node → Span
  | .mk _ sp _ _ => sp

/-- Name carried by a node (empty when the variant has none). -/
def Node.name : Node → String
  | .mk _ _ nm _ => nm

/-- Child nodes of a node, in document order. -/
def Node.children : Node → NodeList
  | .mk _ _ _ cs => cs

/-- Modelled from the spec (section 4.1): the span classifier, a pure total
function statically assigning every variant to exactly one family. -/
def classify : NodeKind → NodeFamily
  | .element => .template
  | .textAttribute => .template
  | .boundAttribute => .template
  | .boundEvent => .template
  | .reference => .template
  | .variableNode => .template
  | .content => .template
  | .templateNode => .template
  | .textNode => .template
  | .icu => .template
  | .propertyRead => .expression
  | .safePropertyRead => .expression
  | .keyedRead => .expression
  | .propertyWrite => .expression
  | .keyedWrite => .expression
  | .binary => .expression
  | .bindingPipe => .expression
  | .methodCall => .expression
  | .safeMethodCall => .expression
  | .literalPrimitive => .expression
  | .literalArray => .expression
  | .literalMap => .expression
  | .conditional => .expression
  | .emptyExpr => .expression
  | .implicitReceiver => .expression

/-- Modelled from the spec (section 6): classification predicate exposed to
callers. -/
def isTemplateNode (n : Node) : Bool :=
  classify n.kind = NodeFamily.template

/-- Modelled from the spec (section 6): classification predicate exposed to
callers. -/
def isExpressionNode (n : Node) : Bool :=
  classify n.kind = NodeFamily.expression

mutual
/-- Modelled from the spec (section 4.2): resolving one node.  When the
position falls inside the node's span the resolver descends into the child
collections in document order and the first descendant match wins; when no
descendant matches, the node itself is the match unless it is an implicit
receiver, which is never a valid resolution target (rule 4). -/
def visitNode (pos : Nat) : Node → Option Node
  | .mk k sp nm cs =>
    if sp.containsPos pos then
      match visitList pos cs with
      | some m => some m
      | none => if k = NodeKind.implicitReceiver then none else some (.mk k sp nm cs)
    else none

/-- Modelled from the spec (section 4.2): resolving an ordered sequence of
sibling nodes; siblings are visited in document order, a node whose span does
not contain the position is skipped, and the first descendant match wins. -/
def visitList (pos : Nat) : NodeList → Option Node
  | .nil => none
  | .cons c cs =>
    match visitNode pos c with
    | some m => some m
    | none => visitList pos cs
end

/-- Modelled from the spec (section 4.2): the caller-facing resolver,
`find(nodes, position) → node-or-absent`. -/
def findNodeAtPosition (nodes : NodeList) (position : Nat) : Option Node :=
  visitList position nodes

mutual
/-- Modelled from the spec (section 9 design note): the same traversal with
the "best match so far" accumulator made explicit, the call-local mutable
state of the implementation technique the spec describes.  A containing node
overwrites the accumulator unless it is an implicit receiver, which simply
does not update it. -/
def visitAccNode (pos : Nat) (found : Option Node) : Node → Option Node
  | .mk k sp nm cs =>
    if sp.containsPos pos then
      visitAccList pos
        (if k = NodeKind.implicitReceiver then found else some (.mk k sp nm cs)) cs
    else found

/-- Modelled from the spec (section 9 design note): accumulator-threading
sibling scan; the first sibling whose span contains the position decides the
result of the scan. -/
def visitAccList (pos : Nat) (found : Option Node) : NodeList → Option Node
  | .nil => found
  | .cons c cs =>
    if c.span.containsPos pos then visitAccNode pos found c
    else visitAccList pos found cs
end

/-- Membership of a node in a sibling sequence. -/
inductive NodeList.Mem : Node → NodeList → Prop
  | head (n : Node) (ns : NodeList) : NodeList.Mem n (NodeList.cons n ns)
  | tail (n m : Node) (ns : NodeList) : NodeList.Mem n ns → NodeList.Mem n (NodeList.cons m ns)

/-- Membership of a node in the subtree rooted at another node (reflexive). -/
inductive InTree : Node → Node → Prop
  | refl (n : Node) : InTree n n
  | step {d : Node} (c : Node) (k : NodeKind) (sp : Span) (nm : String) (cs : NodeList) :
      NodeList.Mem c cs → InTree d c → InTree d (Node.mk k sp nm cs)

/-- Membership of a node in a forest of root nodes (anywhere in any subtree). -/
def InForest (d : Node) (ns : NodeList) : Prop :=
  ∃ r, NodeList.Mem r ns ∧ InTree d r

mutual
/-- Modelled from the spec (section 3 invariants): a well-formed node.  Every
child's span is contained in its parent's span, except that an implicit
receiver's span is unconstrained (the resolver must treat it as non-matching
regardless of containment); sibling spans are positionally non-overlapping;
an implicit receiver denotes an absent target and carries no children. -/
inductive WFNode : Node → Prop
  | mk (k : NodeKind) (sp : Span) (nm : String) (cs : NodeList) :
      (k = NodeKind.implicitReceiver → cs = NodeList.nil) →
      (∀ c, NodeList.Mem c cs → c.kind ≠ NodeKind.implicitReceiver →
        sp.start ≤ c.span.start ∧ c.span.stop ≤ sp.stop) →
      WFList cs → WFNode (Node.mk k sp nm cs)

/-- Modelled from the spec (section 3 invariants): a well-formed sibling
sequence, all members well-formed and pairwise positionally disjoint. -/
inductive WFList : NodeList → Prop
  | nil : WFList NodeList.nil
  | cons (c : Node) (cs : NodeList) :
      WFNode c → (∀ d, NodeList.Mem d cs → Span.disj c.span d.span) →
      WFList cs → WFList (NodeList.cons c cs)
end

/-- Modelled from the spec: attribute leaf of the template `<div class="foo"></div>`,
`class="foo"` spanning offsets 5 to 16 (the key alone spans 5 to 9; the whole
attribute is used here). -/
def w1Attr : Node := .mk .textAttribute ⟨5, 16⟩ "class" .nil

/-- Modelled from the spec: the `div` element of `<div class="foo"></div>`. -/
def w1Root : Node := .mk .element ⟨0, 23⟩ "div" (.cons w1Attr .nil)

/-- Root sequence of the `<div class="foo"></div>` template. -/
def w1Forest : NodeList := .cons w1Root .nil

/-- Modelled from the spec: the `title` property read of `{{ title }}`, with
its implicit receiver child whose span is the zero-width range at the
expression start. -/
def interpRead : Node :=
  .mk .propertyRead ⟨3, 8⟩ "title" (.cons (.mk .implicitReceiver ⟨3, 3⟩ "" .nil) .nil)

/-- Modelled from the spec: the text node holding the interpolation
`{{ title }}` (offsets over the 11-character template). -/
def interpText : Node := .mk .textNode ⟨0, 11⟩ "" (.cons interpRead .nil)

/-- Root sequence of the `{{ title }}` template. -/
def interpForest : NodeList := .cons interpText .nil

/-- Modelled from the spec: expression side of the two-way binding
`<cmp [(foo)]="bar"></cmp>`: the property read `bar` at offsets 14 to 17. -/
def twoWayRead : Node :=
  .mk .propertyRead ⟨14, 17⟩ "bar" (.cons (.mk .implicitReceiver ⟨14, 14⟩ "" .nil) .nil)

/-- Modelled from the spec: the `BoundAttribute` named `foo` that the two-way
binding `[(foo)]="bar"` desugars to, spanning the whole surface attribute
(offsets 5 to 18) and carrying the value expression as payload. -/
def twoWayAttr : Node := .mk .boundAttribute ⟨5, 18⟩ "foo" (.cons twoWayRead .nil)

/-- Modelled from the spec: the `cmp` element of `<cmp [(foo)]="bar"></cmp>`. -/
def twoWayElement : Node := .mk .element ⟨0, 25⟩ "cmp" (.cons twoWayAttr .nil)

/-- Root sequence of the `<cmp [(foo)]="bar"></cmp>` template. -/
def twoWayForest : NodeList := .cons twoWayElement .nil

/-- Modelled from the spec: the `ngFor` text attribute the microsyntax
attribute `*ngFor="..."` desugars to, spanning the surface key (offsets 5 to
11 of `<div *ngFor="let item of items"></div>`). -/
def microNgFor : Node := .mk .textAttribute ⟨5, 11⟩ "ngFor" .nil

/-- Modelled from the spec: the `items` property read of the microsyntax
value, offsets 25 to 30. -/
def microItemsRead : Node :=
  .mk .propertyRead ⟨25, 30⟩ "items" (.cons (.mk .implicitReceiver ⟨25, 25⟩ "" .nil) .nil)

/-- Modelled from the spec: the synthesized `BoundAttribute` named `ngForOf`
whose span is remapped onto the `of items` region of the original surface
text (offsets 22 to 30), not onto a node literally named `of`. -/
def microNgForOf : Node := .mk .boundAttribute ⟨22, 30⟩ "ngForOf" (.cons microItemsRead .nil)

/-- Modelled from the spec: the `Variable` for the `let item` declaration;
its span covers the original surface text for that declaration (offsets 13 to
21, which include the `let` keyword token). -/
def microItemVar : Node := .mk .variableNode ⟨13, 21⟩ "item" .nil

/-- Modelled from the spec: the `div` element left inside the desugared
template. -/
def microDiv : Node := .mk .element ⟨0, 38⟩ "div" .nil

/-- Modelled from the spec: the desugared `Template` node for
`<div *ngFor="let item of items"></div>`, children in the spec's document
order: attributes, bound attributes, variables, element children. -/
def microTemplate : Node :=
  .mk .templateNode ⟨0, 38⟩ ""
    (.cons microNgFor (.cons microNgForOf (.cons microItemVar (.cons microDiv .nil))))

/-- Root sequence of the `<div *ngFor="let item of items"></div>` template. -/
def microForest : NodeList := .cons microTemplate .nil

/-- Modelled from the spec: a lone implicit-receiver node with a non-trivial
span, a region that is intentionally unlocatable. -/
def irNode : Node := .mk .implicitReceiver ⟨0, 5⟩ "" .nil

/-- A forest whose only node is an implicit receiver. -/
def irOnlyForest : NodeList := .cons irNode .nil

/-- Source location (the `ɵSourceLocation` interface), restricted to the
fields the serializer reads: file path, start line, optional end line, and
the optional source text of the located expression. -/
structure SourceLocation where
  file : String
  startLine : Nat
  endLineOpt : Option Nat
  text : Option String
deriving DecidableEq, Repr

/-- Parsed message record (the `ɵParsedMessage` interface), restricted to the
fields the XLIFF 2 serializer reads.  Optional string fields are
`Option String`; `meaning` and `description` are plain strings whose
emptiness stands for JavaScript falsiness.  The interface's invariant is that
`messageParts` has exactly one more entry than `placeholderNames`. -/
structure ParsedMessage where
  id : String
  customId : Option String
  legacyIds : Option (List String)
  messageParts : List String
  placeholderNames : List String
  meaning : String
  description : String
  location : Option SourceLocation
  substitutionLocations : Option (List (String × Option SourceLocation))
deriving DecidableEq, Repr

/-- An XML output event, one `XmlFile` method call of the serializer: an
opening tag with its attributes, a closing tag, a self-closing tag, or a text
chunk.  The pretty-printing options (`preserveWhitespace`, indentation,
escaping) do not change which calls occur and are not modelled. -/
inductive XmlEvent where
  | openTag (name : String) (attrs : List (String × String))
  | closeTag (name : String)
  | selfCloseTag (name : String) (attrs : List (String × String))
  | text (s : String)
deriving DecidableEq, Repr

/-- First-match lookup in an association list, the record access
`record[key]` for the modelled `Record<string, ...>`. -/
def lookupAssoc (l : List (String × Option SourceLocation)) (key : String) :
    Option (Option SourceLocation) :=
  match l with
  | [] => none
  | (k, v) :: rest => if k = key then some v else lookupAssoc rest key

/-- The optional-chaining access `substitutionLocations?.[name]?.text` of
`serializePlaceholder`. -/
def subLocText (subLocs : Option (List (String × Option SourceLocation)))
    (name : String) : Option String :=
  match subLocs with
  | none => none
  | some l =>
    match lookupAssoc l name with
    | none => none
    | some none => none
    | some (some loc) => loc.text

/-- The maximum number of characters that can appear in a legacy XLIFF 2.0
message id. -/
def MAX_LEGACY_XLIFF_2_MESSAGE_LENGTH : Nat := 20

/-- String prefix test, `s.startsWith(pre)` of JavaScript, expressed over the
character list so that it evaluates by kernel reduction. -/
def strStartsWith (s pre : String) : Bool :=
  pre.data.isPrefixOf s.data

/-- The predicate of `getMessageId`'s `legacyIds.find` call:
`id.length <= MAX_LEGACY_XLIFF_2_MESSAGE_LENGTH && !/[^0-9]/.test(id)`,
expressed over the character list so that it evaluates by kernel
reduction. -/
def isLegacyXliff2Id (id : String) : Bool :=
  decide (id.data.length ≤ MAX_LEGACY_XLIFF_2_MESSAGE_LENGTH) &&
    id.data.all Char.isDigit

/-- The middle clause of `getMessageId`, the value of the chain
`useLegacyIds && legacyIds !== undefined && legacyIds.find(...)` followed by
`|| message.id`: a found id that is the empty string is falsy in JavaScript
and falls through to `message.id`. -/
def getMessageIdLegacy (useLegacyIds : Bool) (message : ParsedMessage) : String :=
  if useLegacyIds then
    match message.legacyIds with
    | some ids =>
      match ids.find? isLegacyXliff2Id with
      | some found => if found ≠ "" then found else message.id
      | none => message.id
    | none => message.id
  else message.id

/-- `getMessageId` of `Xliff2TranslationSerializer`:
`customId || useLegacyIds && legacyIds !== undefined && legacyIds.find(...) || id`,
with JavaScript truthiness (an undefined or empty string falls through). -/
def getMessageId (useLegacyIds : Bool) (message : ParsedMessage) : String :=
  match message.customId with
  | some c => if c ≠ "" then c else getMessageIdLegacy useLegacyIds message
  | none => getMessageIdLegacy useLegacyIds message

/-- The legacy clause as claim C9 words it: the first legacy id of at most 20
characters consisting only of decimal digits is returned whenever one exists,
with no further condition on it. -/
def getMessageIdLegacyClaimed (useLegacyIds : Bool) (message : ParsedMessage) :
    String :=
  if useLegacyIds then
    match message.legacyIds with
    | some ids =>
      match ids.find? isLegacyXliff2Id with
      | some found => found
      | none => message.id
    | none => message.id
  else message.id

/-- The id-selection rule exactly as claim C9 states it, for comparison with
the code's `getMessageId`. -/
def getMessageIdClaimed (useLegacyIds : Bool) (message : ParsedMessage) : String :=
  match message.customId with
  | some c => if c ≠ "" then c else getMessageIdLegacyClaimed useLegacyIds message
  | none => getMessageIdLegacyClaimed useLegacyIds message

/-- The prefix replacement `placeholderName.replace(/^START/, 'CLOSE')` for a
name that starts with `START_`. -/
def closingName (name : String) : String :=
  "CLOSE" ++ name.drop 5

/-- `serializePlaceholder`: a `START_*` placeholder opens a `<pc>` tag whose
`equivEnd` names the matching `CLOSE_*` placeholder, a `CLOSE_*` placeholder
closes the `<pc>` tag, and any other placeholder is a self-closing `<ph/>`;
the result carries the updated `currentPlaceholderId` counter. -/
def serializePlaceholder (pid : Nat) (placeholderName : String)
    (substitutionLocations : Option (List (String × Option SourceLocation))) :
    List XmlEvent × Nat :=
  let text := subLocText substitutionLocations placeholderName
  if strStartsWith placeholderName "START_" then
    let closing := closingName placeholderName
    let closingText := subLocText substitutionLocations closing
    let attrs := [("id", toString pid), ("equivStart", placeholderName),
        ("equivEnd", closing)] ++
      (match text with | some t => [("dispStart", t)] | none => []) ++
      (match closingText with | some t => [("dispEnd", t)] | none => [])
    ([XmlEvent.openTag "pc" attrs], pid + 1)
  else if strStartsWith placeholderName "CLOSE_" then
    ([XmlEvent.closeTag "pc"], pid)
  else
    let attrs := [("id", toString pid), ("equiv", placeholderName)] ++
      (match text with | some t => [("disp", t)] | none => [])
    ([XmlEvent.selfCloseTag "ph" attrs], pid + 1)

/-- The loop of `serializeTextPart` over the pieces returned by
`extractIcuPlaceholders`: even-indexed pieces are text, odd-indexed pieces
are ICU placeholder names serialized with no substitution locations, and the
final piece is emitted as text.  `extractIcuPlaceholders` always returns at
least one piece; on an empty piece list (unreachable, the TypeScript loop
would read an undefined index) nothing is emitted. -/
def serializeTextPieces (pid : Nat) : List String → List XmlEvent × Nat
  | [] => ([], pid)
  | [p] => ([XmlEvent.text p], pid)
  | [p, q] =>
    let r := serializePlaceholder pid q none
    (XmlEvent.text p :: r.1 ++ [XmlEvent.text q], r.2)
  | p :: q :: r :: rest =>
    let e1 := serializePlaceholder pid q none
    let e2 := serializeTextPieces e1.2 (r :: rest)
    (XmlEvent.text p :: e1.1 ++ e2.1, e2.2)

/-- `serializeTextPart`: split the text at ICU placeholders and emit the
pieces.  The splitter `extractIcuPlaceholders` lives in `icu_parsing.ts`,
outside the source excerpt, so it is a parameter. -/
def serializeTextPart (extractIcu : String → List String) (pid : Nat)
    (text : String) : List XmlEvent × Nat :=
  serializeTextPieces pid (extractIcu text)

/-- The loop of `serializeMessage`: message parts and placeholder names
strictly interleaved.  The recursion follows the TypeScript index loop under
the `ɵParsedMessage` invariant that `messageParts` has one more entry than
`placeholderNames`; outside that invariant the TypeScript code would read an
undefined index, and the fallback cases here just emit the remaining text
part. -/
def serializeInterleaved (extractIcu : String → List String)
    (subLocs : Option (List (String × Option SourceLocation))) (pid : Nat) :
    List String → List String → List XmlEvent × Nat
  | [], _ => ([], pid)
  | [p], _ => serializeTextPart extractIcu pid p
  | p :: _ :: _, [] => serializeTextPart extractIcu pid p
  | p :: p2 :: parts, n :: names =>
    let e1 := serializeTextPart extractIcu pid p
    let e2 := serializePlaceholder e1.2 n subLocs
    let e3 := serializeInterleaved extractIcu subLocs e2.2 (p2 :: parts) names
    (e1.1 ++ e2.1 ++ e3.1, e3.2)

/-- `serializeMessage`: resets `currentPlaceholderId` to zero and emits the
interleaved text parts and placeholders of the message. -/
def serializeMessage (extractIcu : String → List String)
    (message : ParsedMessage) : List XmlEvent :=
  (serializeInterleaved extractIcu message.substitutionLocations 0
    message.messageParts message.placeholderNames).1

/-- `serializeNote`: a `<note category=...>` element holding the value. -/
def serializeNote (name value : String) : List XmlEvent :=
  [XmlEvent.openTag "note" [("category", name)], XmlEvent.text value,
    XmlEvent.closeTag "note"]

/-- The location note text
`relative(basePath, file):start.line+1` with `,end.line+1` appended when an
end line exists and differs from the start line.  The path relativization
function lives in the compiler-cli file-system layer, outside the source
excerpt, so it is a parameter. -/
def locationText (rel : String → String → String) (basePath : String)
    (loc : SourceLocation) : String :=
  let endLineString :=
    match loc.endLineOpt with
    | some e => if e ≠ loc.startLine then "," ++ toString (e + 1) else ""
    | none => ""
  rel basePath loc.file ++ ":" ++ toString (loc.startLine + 1) ++ endLineString

/-- The `<notes>` block of one `<unit>`: emitted only when the message has a
truthy meaning or description, holding the optional location note, the
description note and the meaning note in that order. -/
def serializeNotes (rel : String → String → String) (basePath : String)
    (message : ParsedMessage) : List XmlEvent :=
  if message.meaning ≠ "" ∨ message.description ≠ "" then
    XmlEvent.openTag "notes" [] ::
      ((match message.location with
        | some loc => serializeNote "location" (locationText rel basePath loc)
        | none => []) ++
        (if message.description ≠ "" then
          serializeNote "description" message.description
        else []) ++
        (if message.meaning ≠ "" then serializeNote "meaning" message.meaning
        else []) ++
        [XmlEvent.closeTag "notes"])
  else []

/-- One `<unit>` element of `serialize`: the id attribute, the optional notes
block, and the `<segment><source>` pair holding the serialized message. -/
def serializeUnit (extractIcu : String → List String)
    (rel : String → String → String) (basePath : String) (id : String)
    (message : ParsedMessage) : List XmlEvent :=
  XmlEvent.openTag "unit" [("id", id)] ::
    (serializeNotes rel basePath message ++
      [XmlEvent.openTag "segment" [], XmlEvent.openTag "source" []] ++
      serializeMessage extractIcu message ++
      [XmlEvent.closeTag "source", XmlEvent.closeTag "segment",
        XmlEvent.closeTag "unit"])

/-- The message loop of `serialize`: a message whose id (via `getMessageId`)
was already rendered is skipped; otherwise its id is recorded and its
`<unit>` rendered.  The TypeScript `Set<string>` of seen ids is a list. -/
def serializeLoop (extractIcu : String → List String)
    (rel : String → String → String) (basePath : String) (useLegacyIds : Bool)
    (ids : List String) : List ParsedMessage → List XmlEvent
  | [] => []
  | message :: rest =>
    let id := getMessageId useLegacyIds message
    if id ∈ ids then serializeLoop extractIcu rel basePath useLegacyIds ids rest
    else
      serializeUnit extractIcu rel basePath id message ++
        serializeLoop extractIcu rel basePath useLegacyIds (id :: ids) rest

/-- `serialize` of `Xliff2TranslationSerializer`: the whole XLIFF 2.0
document as an event sequence. -/
def serialize (extractIcu : String → List String)
    (rel : String → String → String) (sourceLocale : String)
    (basePath : String) (useLegacyIds : Bool)
    (messages : List ParsedMessage) : List XmlEvent :=
  XmlEvent.openTag "xliff"
      [("version", "2.0"), ("xmlns", "urn:oasis:names:tc:xliff:document:2.0"),
        ("srcLang", sourceLocale)] ::
    XmlEvent.openTag "file" [("id", "ngi18n"), ("original", "ng.template")] ::
    (serializeLoop extractIcu rel basePath useLegacyIds [] messages ++
      [XmlEvent.closeTag "file", XmlEvent.closeTag "xliff"])

/-- Text-part recognizer over events. -/
def isTextEv : XmlEvent → Bool
  | .text _ => true
  | _ => false

/-- The output shape `text (tag text)*`: text parts and tags strictly
alternating, starting and ending with a text part. -/
def altTT : List XmlEvent → Bool
  | [] => false
  | [e] => isTextEv e
  | e1 :: e2 :: rest => isTextEv e1 && !isTextEv e2 && altTT rest

/-- Projection of an event sequence to its `<pc>` tag structure: `true` for
an opening `pc` tag, `false` for a closing one. -/
def pcProj : List XmlEvent → List Bool
  | [] => []
  | XmlEvent.openTag n _ :: rest =>
    if n = "pc" then true :: pcProj rest else pcProj rest
  | XmlEvent.closeTag n :: rest =>
    if n = "pc" then false :: pcProj rest else pcProj rest
  | _ :: rest => pcProj rest

/-- Projection of a placeholder-name sequence to its `START_*` and `CLOSE_*`
structure. -/
def scProj : List String → List Bool
  | [] => []
  | n :: rest =>
    if strStartsWith n "START_" then true :: scProj rest
    else if strStartsWith n "CLOSE_" then false :: scProj rest
    else scProj rest

/-- The ICU placeholder names a piece list contributes, in emission order. -/
def piecePhs : List String → List String
  | [] => []
  | [_] => []
  | [_, q] => [q]
  | _ :: q :: r :: rest => q :: piecePhs (r :: rest)

/-- All placeholder names the serializer emits for a message, in emission
order: the ICU placeholders of each text part interleaved with the message's
own placeholder names. -/
def emittedPlaceholders (extractIcu : String → List String) :
    List String → List String → List String
  | [], _ => []
  | [p], _ => piecePhs (extractIcu p)
  | p :: _ :: _, [] => piecePhs (extractIcu p)
  | p :: p2 :: parts, n :: names =>
    piecePhs (extractIcu p) ++
      n :: emittedPlaceholders extractIcu (p2 :: parts) names

/-- Dyck balance check for a sequence of opens (`true`) and closes
(`false`), tracking the number of currently open tags. -/
def balancedAux : List Bool → Nat → Bool
  | [], 0 => true
  | [], _ + 1 => false
  | true :: rest, d => balancedAux rest (d + 1)
  | false :: rest, 0 => false
  | false :: rest, d + 1 => balancedAux rest d

/-- A sequence of opens and closes is balanced. -/
def balanced (bs : List Bool) : Bool := balancedAux bs 0

/-- The `id` attributes of the `<unit>` opening tags of an event stream, in
order. -/
def unitIds : List XmlEvent → List String
  | [] => []
  | XmlEvent.openTag n attrs :: rest =>
    if n = "unit" then
      (match attrs with | ("id", v) :: _ => [v] | _ => []) ++ unitIds rest
    else unitIds rest
  | _ :: rest => unitIds rest

/-- The number of `<unit>` opening tags of an event stream. -/
def countUnits : List XmlEvent → Nat
  | [] => 0
  | XmlEvent.openTag n _ :: rest =>
    (if n = "unit" then 1 else 0) + countUnits rest
  | _ :: rest => countUnits rest

/-- An event that is not a `<unit>` opening tag. -/
def noUnitEv : XmlEvent → Bool
  | .openTag n _ => !(n == "unit")
  | _ => true

/-- First-occurrence filter on strings: every entry already seen is
dropped. -/
def seenFilter (seen : List String) : List String → List String
  | [] => []
  | x :: xs =>
    if x ∈ seen then seenFilter seen xs else x :: seenFilter (x :: seen) xs

/-- First-occurrence filter on messages by their serialized id. -/
def msgFilter (useLegacyIds : Bool) (seen : List String) :
    List ParsedMessage → List ParsedMessage
  | [] => []
  | m :: ms =>
    let id := getMessageId useLegacyIds m
    if id ∈ seen then msgFilter useLegacyIds seen ms
    else m :: msgFilter useLegacyIds (id :: seen) ms

/-- A message whose only fitting legacy id is the empty string, which
`isLegacyXliff2Id` accepts but JavaScript truthiness rejects. -/
def cexMessage : ParsedMessage :=
  { id := "canonical", customId := none, legacyIds := some [""],
    messageParts := ["hello"], placeholderNames := [], meaning := "",
    description := "", location := none, substitutionLocations := none }

/-- A concrete message with one interleaved `START_*`/`CLOSE_*` placeholder
pair. -/
def wMsg : ParsedMessage :=
  { id := "m1", customId := none, legacyIds := none,
    messageParts := ["a", "b", "c"],
    placeholderNames := ["START_TAG_SPAN", "CLOSE_TAG_SPAN"],
    meaning := "", description := "", location := none,
    substitutionLocations := none }

/-- Simultaneous induction over the mutual node and node-sequence types. -/
theorem nodeMutualInduction {motive1 : Node → Prop} {motive2 : NodeList → Prop}
    (hmk : ∀ k sp nm cs, motive2 cs → motive1 (Node.mk k sp nm cs))
    (hnil : motive2 NodeList.nil)
    (hcons : ∀ c cs, motive1 c → motive2 cs → motive2 (NodeList.cons c cs)) :
    (∀ n, motive1 n) ∧ (∀ ns, motive2 ns) :=
  ⟨fun n => @Node.rec motive1 motive2 hmk hnil hcons n,
   fun ns => @NodeList.rec motive1 motive2 hmk hnil hcons ns⟩

/-- A span contained in another transports position containment outward. -/
theorem Span.containsPos_of_sub {a b : Span} {p : Nat} (h1 : a.start ≤ b.start)
    (h2 : b.stop ≤ a.stop) (h : b.containsPos p) : a.containsPos p :=
  ⟨Nat.le_trans h1 h.1, Nat.lt_of_lt_of_le h.2 h2⟩

/-- A node whose span does not contain the position resolves to nothing. -/
theorem visitNode_eq_none {pos : Nat} {n : Node} (h : ¬ n.span.containsPos pos) :
    visitNode pos n = none := by
  obtain ⟨k, sp, nm, cs⟩ := n
  simp only [Node.span] at h
  simp [visitNode, h]

/-- A node that resolves to something has the position inside its span. -/
theorem visitNode_contains {pos : Nat} {n : Node} {m : Node}
    (h : visitNode pos n = some m) : n.span.containsPos pos := by
  by_contra hc
  rw [visitNode_eq_none hc] at h
  exact Option.noConfusion h

/-- Every member of a well-formed sequence is a well-formed node. -/
theorem wfList_mem {ns : NodeList} {c : Node} (hwf : WFList ns)
    (hm : NodeList.Mem c ns) : WFNode c := by
  induction hm with
  | head ms => cases hwf with | cons _ _ h1 _ _ => exact h1
  | tail m ms _ ih => cases hwf with | cons _ _ _ _ h3 => exact ih h3

/-- In a well-formed sequence the head's span is disjoint from every tail
member's span. -/
theorem wfList_head_disj {c : Node} {cs : NodeList} {d : Node}
    (hwf : WFList (NodeList.cons c cs)) (hm : NodeList.Mem d cs) :
    Span.disj c.span d.span := by
  cases hwf with | cons _ _ _ h2 _ => exact h2 d hm

/-- A well-formed node with a child is not an implicit receiver. -/
theorem not_ir_of_child {c ch : Node} (hwf : WFNode c)
    (hm : NodeList.Mem ch c.children) : c.kind ≠ NodeKind.implicitReceiver := by
  obtain ⟨k, sp, nm, cs⟩ := c
  cases hwf with
  | mk _ _ _ _ h1 _ _ =>
    intro hk
    simp only [Node.kind] at hk
    rw [h1 hk] at hm
    cases hm

/-- Well-formedness is inherited by every node of the subtree. -/
theorem wf_of_inTree {n d : Node} (h : InTree d n) : WFNode n → WFNode d := by
  induction h with
  | refl => exact fun hwf => hwf
  | step c k sp nm cs hmem _ ih =>
    intro hwf
    cases hwf with
    | mk _ _ _ _ _ _ h3 => exact ih (wfList_mem h3 hmem)

/-- Well-formedness is inherited by every node of the forest. -/
theorem wf_of_inForest {ns : NodeList} {d : Node} (hwf : WFList ns)
    (h : InForest d ns) : WFNode d := by
  obtain ⟨r, hr, ht⟩ := h
  exact wf_of_inTree ht (wfList_mem hwf hr)

/-- Span monotonicity: in a well-formed tree the span of a non-implicit-
receiver descendant is contained in the root's span. -/
theorem span_mono {d n : Node} (h : InTree d n) :
    WFNode n → d.kind ≠ NodeKind.implicitReceiver →
    n.span.start ≤ d.span.start ∧ d.span.stop ≤ n.span.stop := by
  induction h with
  | refl => exact fun _ _ => ⟨Nat.le_refl _, Nat.le_refl _⟩
  | step c k sp nm cs hmem hc ih =>
    intro hwf hd
    cases hwf with
    | mk _ _ _ _ h1 h2 h3 =>
      have hwfc := wfList_mem h3 hmem
      have hcne : c.kind ≠ NodeKind.implicitReceiver := by
        cases hc with
        | refl => exact hd
        | step c' k' sp' nm' cs' hmem' _ => exact not_ir_of_child hwfc hmem'
      have hsub := h2 c hmem hcne
      have hih := ih hwfc hd
      exact ⟨Nat.le_trans hsub.1 hih.1, Nat.le_trans hih.2 hsub.2⟩

/-- A containing non-implicit-receiver descendant forces the root's span to
contain the position as well. -/
theorem contains_of_descendant {d n : Node} {pos : Nat} (hwf : WFNode n)
    (h : InTree d n) (hd : d.kind ≠ NodeKind.implicitReceiver)
    (hc : d.span.containsPos pos) : n.span.containsPos pos := by
  have := span_mono h hwf hd
  exact Span.containsPos_of_sub this.1 this.2 hc

/-- Soundness of the resolver: a returned node lies in the visited tree, its
span contains the position, and it is never an implicit receiver.  No
well-formedness assumption is needed. -/
theorem visit_sound :
    (∀ n : Node, ∀ pos m, visitNode pos n = some m →
      InTree m n ∧ m.span.containsPos pos ∧ m.kind ≠ NodeKind.implicitReceiver) ∧
    (∀ ns : NodeList, ∀ pos m, visitList pos ns = some m →
      (∃ r, NodeList.Mem r ns ∧ InTree m r) ∧ m.span.containsPos pos ∧
        m.kind ≠ NodeKind.implicitReceiver) := by
  apply nodeMutualInduction
  · intro k sp nm cs ih pos m h
    by_cases hcont : sp.containsPos pos
    · simp only [visitNode, if_pos hcont] at h
      cases hv : visitList pos cs with
      | some mm =>
        simp only [hv] at h
        cases h
        obtain ⟨⟨r, hr, ht⟩, hc, hir⟩ := ih pos _ hv
        exact ⟨InTree.step r k sp nm cs hr ht, hc, hir⟩
      | none =>
        simp only [hv] at h
        by_cases hk : k = NodeKind.implicitReceiver
        · simp [hk] at h
        · simp only [if_neg hk] at h
          cases h
          exact ⟨InTree.refl _, hcont, hk⟩
    · simp [visitNode, hcont] at h
  · intro pos m h
    simp [visitList] at h
  · intro c cs ihc ihcs pos m h
    simp only [visitList] at h
    cases hv : visitNode pos c with
    | some mm =>
      simp only [hv] at h
      cases h
      obtain ⟨ht, hc, hir⟩ := ihc pos _ hv
      exact ⟨⟨c, NodeList.Mem.head c cs, ht⟩, hc, hir⟩
    | none =>
      simp only [hv] at h
      obtain ⟨⟨r, hr, ht⟩, hc, hir⟩ := ihcs pos m h
      exact ⟨⟨r, NodeList.Mem.tail r c cs hr, ht⟩, hc, hir⟩

/-- Completeness of a failed resolution: when a well-formed tree resolves to
nothing, every node whose span contains the position is an implicit
receiver. -/
theorem visit_complete :
    (∀ n : Node, ∀ pos, WFNode n → visitNode pos n = none →
      ∀ d, InTree d n → d.span.containsPos pos → d.kind = NodeKind.implicitReceiver) ∧
    (∀ ns : NodeList, ∀ pos, WFList ns → visitList pos ns = none →
      ∀ d r, NodeList.Mem r ns → InTree d r → d.span.containsPos pos →
        d.kind = NodeKind.implicitReceiver) := by
  apply nodeMutualInduction
  · intro k sp nm cs ih pos hwf h d hd hdc
    by_cases hcont : sp.containsPos pos
    · simp only [visitNode, if_pos hcont] at h
      cases hv : visitList pos cs with
      | some mm => simp [hv] at h
      | none =>
        simp only [hv] at h
        by_cases hk : k = NodeKind.implicitReceiver
        · cases hwf with
          | mk _ _ _ _ h1 h2 h3 =>
            have hnil := h1 hk
            subst hnil
            cases hd with
            | refl => simpa [Node.kind] using hk
            | step c _ _ _ _ hmem _ => cases hmem
        · simp [hk] at h
    · by_contra hdir
      exact hcont (contains_of_descendant hwf hd hdir hdc)
  · intro pos _ _ d r hmem
    cases hmem
  · intro c cs ihc ihcs pos hwf h d r hmem hd hdc
    cases hwf with
    | cons _ _ hwfc hdisj hwfcs =>
      simp only [visitList] at h
      cases hv : visitNode pos c with
      | some mm => simp [hv] at h
      | none =>
        simp only [hv] at h
        cases hmem with
        | head ms => exact ihc pos hwfc hv d hd hdc
        | tail mm ms hmem2 => exact ihcs pos hwfcs h d r hmem2 hd hdc

/-- Deepest-match property: on a well-formed tree the returned node lies in
the subtree of every non-implicit-receiver node whose span contains the
position, so it is the single deepest such node. -/
theorem visit_deepest :
    (∀ n : Node, ∀ pos m, WFNode n → visitNode pos n = some m →
      ∀ d, InTree d n → d.span.containsPos pos →
        d.kind ≠ NodeKind.implicitReceiver → InTree m d) ∧
    (∀ ns : NodeList, ∀ pos m, WFList ns → visitList pos ns = some m →
      ∀ d r, NodeList.Mem r ns → InTree d r → d.span.containsPos pos →
        d.kind ≠ NodeKind.implicitReceiver → InTree m d) := by
  apply nodeMutualInduction
  · intro k sp nm cs ih pos m hwf h d hd hdc hdir
    have hcont : sp.containsPos pos := visitNode_contains h
    cases hwf with
    | mk _ _ _ _ h1 h2 h3 =>
      cases hd with
      | refl => exact (visit_sound.1 _ pos m h).1
      | step c _ _ _ _ hmem hdc2 =>
        cases hv : visitList pos cs with
        | some mm =>
          have hm : mm = m := by
            simp [visitNode, hcont, hv] at h
            exact h
          subst hm
          exact ih pos mm h3 hv d c hmem hdc2 hdc hdir
        | none =>
          exact absurd (visit_complete.2 cs pos h3 hv d c hmem hdc2 hdc) hdir
  · intro pos m _ _ d r hmem
    cases hmem
  · intro c cs ihc ihcs pos m hwf h d r hmem hd hdc hdir
    cases hwf with
    | cons _ _ hwfc hdisj hwfcs =>
      simp only [visitList] at h
      cases hv : visitNode pos c with
      | some mm =>
        have hm : mm = m := by simpa [hv] using h
        subst hm
        cases hmem with
        | head ms => exact ihc pos mm hwfc hv d hd hdc hdir
        | tail m2 ms hmem2 =>
          have hc : c.span.containsPos pos := visitNode_contains hv
          have hwfr : WFNode r := wfList_mem hwfcs hmem2
          have hr : r.span.containsPos pos := contains_of_descendant hwfr hd hdir hdc
          exact absurd ⟨hc, hr⟩ (hdisj r hmem2 pos)
      | none =>
        simp only [hv] at h
        cases hmem with
        | head ms => exact absurd (visit_complete.1 c pos hwfc hv d hd hdc) hdir
        | tail m2 ms hmem2 => exact ihcs pos m hwfcs h d r hmem2 hd hdc hdir

/-- Inversion for subtree membership: a node of a subtree is the root or lies
in a child's subtree. -/
theorem inTree_cases {m n : Node} (h : InTree m n) :
    m = n ∨ ∃ ch, NodeList.Mem ch n.children ∧ InTree m ch := by
  cases h with
  | refl => exact Or.inl rfl
  | step c k sp nm cs hmem ht => exact Or.inr ⟨c, hmem, ht⟩

/-- The child sequence of a well-formed node is well-formed. -/
theorem wf_children {c : Node} (h : WFNode c) : WFList c.children := by
  obtain ⟨k, sp, nm, cs⟩ := c
  cases h with
  | mk _ _ _ _ _ _ h3 => exact h3

/-- A node with no children is well-formed. -/
theorem wf_leaf (k : NodeKind) (sp : Span) (nm : String) :
    WFNode (Node.mk k sp nm .nil) :=
  WFNode.mk k sp nm .nil (fun _ => rfl) (fun _ hc => by cases hc) WFList.nil

/-- A single well-formed node forms a well-formed sequence. -/
theorem wfList_single {c : Node} (h : WFNode c) : WFList (NodeList.cons c .nil) :=
  WFList.cons c .nil h (fun _ hd => by cases hd) WFList.nil

/-- When a well-formed forest resolves to nothing, every node of the forest
whose span contains the position is an implicit receiver. -/
theorem find_none_all_ir {ns : NodeList} {p : Nat} (hwf : WFList ns)
    (h : findNodeAtPosition ns p = none) :
    ∀ d, InForest d ns → d.span.containsPos p → d.kind = NodeKind.implicitReceiver := by
  intro d hd hdc
  obtain ⟨r, hr, ht⟩ := hd
  exact visit_complete.2 ns p hwf h d r hr ht hdc

/-- In a well-formed forest, a containing non-implicit-receiver node none of
whose children contains the position is the resolution result. -/
theorem find_container {ns : NodeList} {p : Nat} (hwf : WFList ns) (c : Node)
    (hc : InForest c ns) (hcc : c.span.containsPos p)
    (hcir : c.kind ≠ NodeKind.implicitReceiver)
    (hch : ∀ ch, NodeList.Mem ch c.children → ¬ ch.span.containsPos p) :
    findNodeAtPosition ns p = some c := by
  cases hfind : findNodeAtPosition ns p with
  | none => exact absurd (find_none_all_ir hwf hfind c hc hcc) hcir
  | some m =>
    obtain ⟨r, hr, ht⟩ := hc
    have hmd : InTree m c := visit_deepest.2 ns p m hwf hfind c r hr ht hcc hcir
    rcases inTree_cases hmd with heq | ⟨ch, hchm, hmch⟩
    · rw [heq]
    · obtain ⟨_, hmc, hmir⟩ := visit_sound.2 ns p m hfind
      have hwfc : WFNode c := wf_of_inForest hwf ⟨r, hr, ht⟩
      have hwfch : WFNode ch := wfList_mem (wf_children hwfc) hchm
      have hchc : ch.span.containsPos p := contains_of_descendant hwfch hmch hmir hmc
      exact absurd hchc (hch ch hchm)

/-- A sequence all of whose members' spans miss the position resolves to
nothing; no well-formedness is needed. -/
theorem visitList_none_of_outside :
    ∀ (ns : NodeList) (pos : Nat),
      (∀ r, NodeList.Mem r ns → ¬ r.span.containsPos pos) → visitList pos ns = none
  | .nil, _, _ => rfl
  | .cons c cs, pos, h => by
    have hc := visitNode_eq_none (h c (NodeList.Mem.head c cs))
    simp only [visitList, hc]
    exact visitList_none_of_outside cs pos (fun r hr => h r (NodeList.Mem.tail r c cs hr))

/-- The example forest for `<div class="foo"></div>` is well-formed. -/
theorem w1Root_wf : WFNode w1Root :=
  WFNode.mk .element ⟨0, 23⟩ "div" (.cons w1Attr .nil)
    (fun h => nomatch h)
    (fun c hc _ => by
      cases hc with
      | head => exact ⟨by decide, by decide⟩
      | tail m ms h2 => cases h2)
    (wfList_single (wf_leaf .textAttribute ⟨5, 16⟩ "class"))

/-- The example forest for `<div class="foo"></div>`, sequence level. -/
theorem w1_wf : WFList w1Forest := wfList_single w1Root_wf

/-- C1: for every well-formed template tree and every position,
`findNodeAtPosition` returns the single deepest node whose span contains the
position, subject to the implicit-receiver exception: a returned node lies in
the forest, contains the position, is never an implicit receiver, and lies in
the subtree of every other containing non-implicit-receiver node; an absent
result means every containing node is an implicit receiver; in particular a
containing container none of whose children contains the position is
returned, and a containing leaf is returned. -/
theorem findNodeAtPosition_returns_deepest_containing (ns : NodeList) (p : Nat)
    (hwf : WFList ns) :
    (∀ m, findNodeAtPosition ns p = some m →
      InForest m ns ∧ m.span.containsPos p ∧ m.kind ≠ NodeKind.implicitReceiver ∧
      ∀ d, InForest d ns → d.span.containsPos p →
        d.kind ≠ NodeKind.implicitReceiver → InTree m d) ∧
    (findNodeAtPosition ns p = none →
      ∀ d, InForest d ns → d.span.containsPos p → d.kind = NodeKind.implicitReceiver) ∧
    (∀ c, InForest c ns → c.span.containsPos p → c.kind ≠ NodeKind.implicitReceiver →
      (∀ ch, NodeList.Mem ch c.children → ¬ ch.span.containsPos p) →
      findNodeAtPosition ns p = some c) ∧
    (∀ l, InForest l ns → l.span.containsPos p → l.kind ≠ NodeKind.implicitReceiver →
      l.children = NodeList.nil → findNodeAtPosition ns p = some l) := by
  refine ⟨?_, fun h => find_none_all_ir hwf h,
    fun c hc hcc hcir hch => find_container hwf c hc hcc hcir hch, ?_⟩
  · intro m h
    obtain ⟨hin, hc, hir⟩ := visit_sound.2 ns p m h
    refine ⟨hin, hc, hir, ?_⟩
    intro d hd hdc hdir
    obtain ⟨r, hr, ht⟩ := hd
    exact visit_deepest.2 ns p m hwf h d r hr ht hdc hdir
  · intro l hl hlc hlir hlnil
    refine find_container hwf l hl hlc hlir ?_
    intro ch hch
    rw [hlnil] at hch
    cases hch

/-- Witness for C1: on the `<div class="foo"></div>` forest, position 6
(inside the attribute key) resolves to the attribute leaf. -/
theorem findNodeAtPosition_returns_deepest_containing_witness :
    WFList w1Forest ∧ findNodeAtPosition w1Forest 6 = some w1Attr :=
  ⟨w1_wf,
    (findNodeAtPosition_returns_deepest_containing w1Forest 6 w1_wf).2.2.2 w1Attr
      ⟨w1Root, NodeList.Mem.head w1Root .nil,
        InTree.step w1Attr .element ⟨0, 23⟩ "div" (.cons w1Attr .nil)
          (NodeList.Mem.head w1Attr .nil) (InTree.refl w1Attr)⟩
      (by decide) (by decide) rfl⟩

/-- C2: boundary law for `[s, e)` spans: a position equal to the start offset
is inside the span (when the span is nonempty), a position equal to the end
offset is outside; a node whose span misses the position is skipped uniformly
for every variant; a containing single node of any non-implicit-receiver
variant is returned; and every node `findNodeAtPosition` returns contains the
queried position. -/
theorem findNodeAtPosition_boundary_law :
    (∀ s e : Nat, s < e → Span.containsPos ⟨s, e⟩ s) ∧
    (∀ s e : Nat, ¬ Span.containsPos ⟨s, e⟩ e) ∧
    (∀ (pos : Nat) (k : NodeKind) (sp : Span) (nm : String) (cs : NodeList),
      ¬ sp.containsPos pos → visitNode pos (Node.mk k sp nm cs) = none) ∧
    (∀ (k : NodeKind) (sp : Span) (nm : String) (p : Nat),
      k ≠ NodeKind.implicitReceiver → sp.containsPos p →
      findNodeAtPosition (NodeList.cons (Node.mk k sp nm .nil) .nil) p =
        some (Node.mk k sp nm .nil)) ∧
    (∀ (ns : NodeList) (p : Nat) (m : Node),
      findNodeAtPosition ns p = some m → m.span.containsPos p) := by
  refine ⟨fun s e h => ⟨Nat.le_refl s, h⟩,
    fun s e h => absurd h.2 (Nat.lt_irrefl e),
    fun pos k sp nm cs h => visitNode_eq_none h,
    ?_,
    fun ns p m h => (visit_sound.2 ns p m h).2.1⟩
  intro k sp nm p hk hp
  simp [findNodeAtPosition, visitList, visitNode, hp, hk]

/-- Witness for C2 at concrete spans, nodes and positions. -/
theorem findNodeAtPosition_boundary_law_witness :
    (2 < 5 ∧ Span.containsPos ⟨2, 5⟩ 2) ∧
    (¬ Span.containsPos ⟨2, 5⟩ 5) ∧
    (¬ Span.containsPos ⟨0, 23⟩ 23 ∧ visitNode 23 w1Root = none) ∧
    findNodeAtPosition (NodeList.cons (Node.mk .element ⟨0, 5⟩ "div" .nil) .nil) 0 =
      some (Node.mk .element ⟨0, 5⟩ "div" .nil) ∧
    Span.containsPos w1Attr.span 6 :=
  ⟨⟨by decide, findNodeAtPosition_boundary_law.1 2 5 (by decide)⟩,
    findNodeAtPosition_boundary_law.2.1 2 5,
    ⟨by decide,
      findNodeAtPosition_boundary_law.2.2.1 23 .element ⟨0, 23⟩ "div"
        (.cons w1Attr .nil) (by decide)⟩,
    findNodeAtPosition_boundary_law.2.2.2.1 .element ⟨0, 5⟩ "div" 0
      (by decide) (by decide),
    findNodeAtPosition_boundary_law.2.2.2.2 w1Forest 6 w1Attr rfl⟩

/-- C3: the resolver never returns an implicit receiver; on the
`{{ title }}` template with the cursor immediately before `title` (position
3, the offset where the implicit receiver region abuts) the result is the
`PropertyRead` named `title`, an expression node, never the receiver. -/
theorem findNodeAtPosition_never_implicit_receiver :
    (∀ (ns : NodeList) (p : Nat) (m : Node),
      findNodeAtPosition ns p = some m → m.kind ≠ NodeKind.implicitReceiver) ∧
    (findNodeAtPosition interpForest 3 = some interpRead ∧
      interpRead.kind = NodeKind.propertyRead ∧ interpRead.name = "title" ∧
      isExpressionNode interpRead = true) :=
  ⟨fun ns p m h => (visit_sound.2 ns p m h).2.2, rfl, rfl, rfl, rfl⟩

/-- Witness for C3 at the `{{ title }}` forest. -/
theorem findNodeAtPosition_never_implicit_receiver_witness :
    findNodeAtPosition interpForest 3 = some interpRead ∧
    interpRead.kind ≠ NodeKind.implicitReceiver :=
  ⟨rfl, findNodeAtPosition_never_implicit_receiver.1 interpForest 3 interpRead rfl⟩

/-- C4: two-way binding desugaring: in `<cmp [(foo)]="bar"></cmp>` a position
inside the attribute name `foo` (offset 7) resolves to the template-side
`BoundAttribute` named `foo`, and a position inside the value `bar` (offset
15) resolves to the expression-side `PropertyRead` named `bar`. -/
theorem findNodeAtPosition_two_way_binding :
    findNodeAtPosition twoWayForest 7 = some twoWayAttr ∧
    twoWayAttr.kind = NodeKind.boundAttribute ∧ twoWayAttr.name = "foo" ∧
    isTemplateNode twoWayAttr = true ∧
    findNodeAtPosition twoWayForest 15 = some twoWayRead ∧
    twoWayRead.kind = NodeKind.propertyRead ∧ twoWayRead.name = "bar" ∧
    isExpressionNode twoWayRead = true :=
  ⟨rfl, rfl, rfl, rfl, rfl, rfl, rfl, rfl⟩

/-- C5: microsyntax remapping, behavior of the modelled code on
`<div *ngFor="let item of items"></div>`: a position on the `of` separator
(offset 23) resolves to the synthesized `BoundAttribute` named `ngForOf`, and
a position on the `let` keyword (offset 14) resolves to the `Variable` named
`item`, whose span covers the whole `let item` declaration — not to an
absent result as the claim states.  The repository's own test records this
behavior and marks it wrong ("it should return undefined"). -/
theorem findNodeAtPosition_microsyntax_behavior :
    findNodeAtPosition microForest 23 = some microNgForOf ∧
    microNgForOf.kind = NodeKind.boundAttribute ∧ microNgForOf.name = "ngForOf" ∧
    findNodeAtPosition microForest 14 = some microItemVar ∧
    microItemVar.kind = NodeKind.variableNode ∧ microItemVar.name = "item" :=
  ⟨rfl, rfl, rfl, rfl, rfl, rfl⟩

/-- The accumulator traversal either hands back its accumulator untouched or
computes a result independent of it. -/
theorem acc_shape :
    (∀ n : Node, ∀ pos : Nat,
      (∀ f, visitAccNode pos f n = f) ∨ (∃ r, ∀ f, visitAccNode pos f n = r)) ∧
    (∀ ns : NodeList, ∀ pos : Nat,
      (∀ f, visitAccList pos f ns = f) ∨ (∃ r, ∀ f, visitAccList pos f ns = r)) := by
  apply nodeMutualInduction
  · intro k sp nm cs ih pos
    by_cases hcont : sp.containsPos pos
    · by_cases hk : k = NodeKind.implicitReceiver
      · rcases ih pos with hid | ⟨r, hr⟩
        · left
          intro f
          simp [visitAccNode, hcont, hk, hid f]
        · right
          refine ⟨r, fun f => ?_⟩
          simp [visitAccNode, hcont, hk, hr f]
      · rcases ih pos with hid | ⟨r, hr⟩
        · right
          refine ⟨some (.mk k sp nm cs), fun f => ?_⟩
          simp [visitAccNode, hcont, hk, hid]
        · right
          refine ⟨r, fun f => ?_⟩
          simp [visitAccNode, hcont, hk, hr]
    · left
      intro f
      simp [visitAccNode, hcont]
  · intro pos
    left
    intro f
    simp [visitAccList]
  · intro c cs ihc ihcs pos
    by_cases hc : c.span.containsPos pos
    · rcases ihc pos with hid | ⟨r, hr⟩
      · left
        intro f
        simp [visitAccList, hc, hid f]
      · right
        refine ⟨r, fun f => ?_⟩
        simp [visitAccList, hc, hr f]
    · rcases ihcs pos with hid | ⟨r, hr⟩
      · left
        intro f
        simp [visitAccList, hc, hid f]
      · right
        refine ⟨r, fun f => ?_⟩
        simp [visitAccList, hc, hr f]

/-- Running the accumulator traversal a second time, seeded with the result
of the first run, changes nothing. -/
theorem acc_stable (ns : NodeList) (p : Nat) (f : Option Node) :
    visitAccList p (visitAccList p f ns) ns = visitAccList p f ns := by
  rcases acc_shape.2 ns p with hid | ⟨r, hr⟩
  · rw [hid, hid]
  · rw [hr, hr]

/-- On well-formed input the accumulator formulation agrees with the direct
recursive resolver: the result is the resolver's match when there is one, the
untouched accumulator otherwise. -/
theorem acc_eq :
    (∀ n : Node, ∀ pos : Nat, ∀ f, WFNode n →
      visitAccNode pos f n =
        match visitNode pos n with
        | some m => some m
        | none => f) ∧
    (∀ ns : NodeList, ∀ pos : Nat, ∀ f, WFList ns →
      visitAccList pos f ns =
        match visitList pos ns with
        | some m => some m
        | none => f) := by
  apply nodeMutualInduction
  · intro k sp nm cs ih pos f hwf
    cases hwf with
    | mk _ _ _ _ h1 h2 h3 =>
      by_cases hcont : sp.containsPos pos
      · cases hv : visitList pos cs with
        | some m =>
          simp [visitAccNode, visitNode, hcont, ih pos _ h3, hv]
        | none =>
          by_cases hk : k = NodeKind.implicitReceiver
          · simp [visitAccNode, visitNode, hcont, hk, ih pos f h3, hv]
          · simp [visitAccNode, visitNode, hcont, hk, ih pos _ h3, hv]
      · simp [visitAccNode, visitNode, hcont]
  · intro pos f _
    simp [visitAccList, visitList]
  · intro c cs ihc ihcs pos f hwf
    cases hwf with
    | cons _ _ hwfc hdisj hwfcs =>
      by_cases hc : c.span.containsPos pos
      · cases hv : visitNode pos c with
        | some m =>
          simp [visitAccList, visitList, hc, ihc pos f hwfc, hv]
        | none =>
          have hrest : visitList pos cs = none := by
            apply visitList_none_of_outside
            intro r hr hrc
            exact hdisj r hr pos ⟨hc, hrc⟩
          simp [visitAccList, visitList, hc, ihc pos f hwfc, hv, hrest]
      · have hcn : visitNode pos c = none := visitNode_eq_none hc
        simp [visitAccList, visitList, hc, hcn, ihcs pos f hwfcs]

/-- C6: totality and failure semantics: the resolver always returns a value
(absent or a node, never an error); a position outside every root-level span
yields absent; and a position contained only in intentionally-unlocatable
implicit-receiver regions yields absent.  Never throwing holds by
construction: `findNodeAtPosition` is a total function. -/
theorem findNodeAtPosition_absent_semantics :
    (∀ (ns : NodeList) (p : Nat),
      findNodeAtPosition ns p = none ∨ ∃ m, findNodeAtPosition ns p = some m) ∧
    (∀ (ns : NodeList) (p : Nat),
      (∀ r, NodeList.Mem r ns → ¬ r.span.containsPos p) →
      findNodeAtPosition ns p = none) ∧
    (∀ (ns : NodeList) (p : Nat),
      (∀ d, InForest d ns → d.span.containsPos p →
        d.kind = NodeKind.implicitReceiver) →
      findNodeAtPosition ns p = none) := by
  refine ⟨?_, fun ns p h => visitList_none_of_outside ns p h, ?_⟩
  · intro ns p
    cases h : findNodeAtPosition ns p with
    | none => exact Or.inl rfl
    | some m => exact Or.inr ⟨m, rfl⟩
  · intro ns p h
    cases hf : findNodeAtPosition ns p with
    | none => rfl
    | some m =>
      obtain ⟨hin, hc, hir⟩ := visit_sound.2 ns p m hf
      exact absurd (h m hin hc) hir

/-- Witness for C6: position 40 lies outside every root span of the
`<div class="foo"></div>` forest and resolves to absent; position 2 lies only
inside the implicit-receiver-only forest and also resolves to absent. -/
theorem findNodeAtPosition_absent_semantics_witness :
    (∀ r, NodeList.Mem r w1Forest → ¬ r.span.containsPos 40) ∧
    findNodeAtPosition w1Forest 40 = none ∧
    findNodeAtPosition irOnlyForest 2 = none :=
  have hout : ∀ r, NodeList.Mem r w1Forest → ¬ r.span.containsPos 40 := by
    intro r hr
    cases hr with
    | head ms => decide
    | tail m ms h2 => cases h2
  have hironly : ∀ d, InForest d irOnlyForest → d.span.containsPos 2 →
      d.kind = NodeKind.implicitReceiver := by
    intro d hd _
    obtain ⟨r, hr, ht⟩ := hd
    cases hr with
    | head ms =>
      cases ht with
      | refl => rfl
      | step c k sp nm cs hmem _ => cases hmem
    | tail m ms h2 => cases h2
  ⟨hout, findNodeAtPosition_absent_semantics.2.1 w1Forest 40 hout,
    findNodeAtPosition_absent_semantics.2.2 irOnlyForest 2 hironly⟩

/-- C7: determinism and purity: two calls on the same tree and position give
structurally identical results; the traversal's only state, the call-local
"best match so far" accumulator, does not leak across runs (a second run
seeded with the first run's result reproduces it), and on well-formed trees
the accumulator formulation agrees with the pure recursive resolver.  The
tree itself is an immutable value in this embedding, so no call can mutate
it. -/
theorem findNodeAtPosition_deterministic_pure :
    (∀ (ns : NodeList) (p : Nat),
      findNodeAtPosition ns p = findNodeAtPosition ns p) ∧
    (∀ (ns : NodeList) (p : Nat) (f : Option Node),
      visitAccList p (visitAccList p f ns) ns = visitAccList p f ns) ∧
    (∀ (ns : NodeList) (p : Nat), WFList ns →
      visitAccList p none ns = findNodeAtPosition ns p) := by
  refine ⟨fun ns p => rfl, fun ns p f => acc_stable ns p f, ?_⟩
  intro ns p hwf
  rw [acc_eq.2 ns p none hwf]
  show (match visitList p ns with | some m => some m | none => none) = visitList p ns
  cases visitList p ns with
  | none => rfl
  | some m => rfl

/-- Every placeholder serialization is exactly one event and it is a tag,
not a text part. -/
theorem serializePlaceholder_single (pid : Nat) (n : String)
    (sl : Option (List (String × Option SourceLocation))) :
    ∃ e, (serializePlaceholder pid n sl).1 = [e] ∧ isTextEv e = false := by
  by_cases h1 : strStartsWith n "START_"
  · exact ⟨XmlEvent.openTag "pc"
      ([("id", toString pid), ("equivStart", n), ("equivEnd", closingName n)] ++
        (match subLocText sl n with | some t => [("dispStart", t)] | none => []) ++
        (match subLocText sl (closingName n) with
          | some t => [("dispEnd", t)] | none => [])),
      by simp [serializePlaceholder, h1], rfl⟩
  · by_cases h2 : strStartsWith n "CLOSE_"
    · exact ⟨XmlEvent.closeTag "pc", by simp [serializePlaceholder, h1, h2], rfl⟩
    · exact ⟨XmlEvent.selfCloseTag "ph"
        ([("id", toString pid), ("equiv", n)] ++
          (match subLocText sl n with | some t => [("disp", t)] | none => [])),
        by simp [serializePlaceholder, h1, h2], rfl⟩

/-- Joining two alternating event runs with a single tag between them keeps
the run alternating. -/
theorem altTT_append :
    ∀ (xs : List XmlEvent) (g : XmlEvent) (ys : List XmlEvent),
      altTT xs = true → isTextEv g = false → altTT ys = true →
      altTT (xs ++ g :: ys) = true
  | [], _, _, hx, _, _ => by simp [altTT] at hx
  | [e], g, ys, hx, hg, hy => by
    simp only [altTT] at hx
    simpa [altTT, hx, hg] using hy
  | [e1, e2], g, ys, hx, hg, hy => by simp [altTT] at hx
  | e1 :: e2 :: e3 :: rest, g, ys, hx, hg, hy => by
    simp only [altTT, Bool.and_eq_true] at hx
    obtain ⟨⟨h1, h2⟩, h3⟩ := hx
    have ih : altTT (e3 :: (rest ++ g :: ys)) = true := by
      simpa using altTT_append (e3 :: rest) g ys h3 hg hy
    simp [altTT, h1, h2, ih]

/-- A text event is a text part. -/
theorem isTextEv_text (s : String) : isTextEv (XmlEvent.text s) = true := rfl

/-- The pieces loop emits an alternating run whenever there is at least one
piece. -/
theorem textPieces_alt :
    ∀ (ps : List String) (pid : Nat), ps ≠ [] →
      altTT (serializeTextPieces pid ps).1 = true
  | [], _, h => absurd rfl h
  | [p], pid, _ => by simp [serializeTextPieces, altTT, isTextEv]
  | [p, q], pid, _ => by
    obtain ⟨e, he, hte⟩ := serializePlaceholder_single pid q none
    show altTT (XmlEvent.text p :: (serializePlaceholder pid q none).1 ++
      [XmlEvent.text q]) = true
    rw [he]
    simp [altTT, isTextEv_text, hte]
  | p :: q :: r :: rest, pid, _ => by
    obtain ⟨e, he, hte⟩ := serializePlaceholder_single pid q none
    have ih := textPieces_alt (r :: rest) (serializePlaceholder pid q none).2
      (by simp)
    show altTT (XmlEvent.text p :: (serializePlaceholder pid q none).1 ++
      (serializeTextPieces (serializePlaceholder pid q none).2 (r :: rest)).1) =
      true
    rw [he]
    simp [altTT, isTextEv_text, hte, ih]

/-- The message loop emits an alternating run under the parsed-message
invariant, provided the ICU splitter never returns an empty piece list. -/
theorem interleaved_alt (extractIcu : String → List String)
    (sl : Option (List (String × Option SourceLocation)))
    (hicu : ∀ t, extractIcu t ≠ []) :
    ∀ (parts names : List String) (pid : Nat),
      parts.length = names.length + 1 →
      altTT (serializeInterleaved extractIcu sl pid parts names).1 = true
  | [], names, pid, hlen => by simp at hlen
  | [p], [], pid, _ => textPieces_alt (extractIcu p) pid (hicu p)
  | [p], n :: names, pid, hlen => by simp at hlen
  | p :: p2 :: parts, [], pid, hlen => by simp at hlen
  | p :: p2 :: parts, n :: names, pid, hlen => by
    obtain ⟨g, hg, htg⟩ := serializePlaceholder_single
      (serializeTextPart extractIcu pid p).2 n sl
    have h1 : altTT (serializeTextPart extractIcu pid p).1 = true :=
      textPieces_alt (extractIcu p) pid (hicu p)
    have hlen2 : (p2 :: parts).length = names.length + 1 := by simpa using hlen
    have ih := interleaved_alt extractIcu sl hicu (p2 :: parts) names
      (serializePlaceholder (serializeTextPart extractIcu pid p).2 n sl).2 hlen2
    show altTT ((serializeTextPart extractIcu pid p).1 ++
      (serializePlaceholder (serializeTextPart extractIcu pid p).2 n sl).1 ++
      (serializeInterleaved extractIcu sl
        (serializePlaceholder (serializeTextPart extractIcu pid p).2 n sl).2
        (p2 :: parts) names).1) = true
    rw [hg]
    have := altTT_append (serializeTextPart extractIcu pid p).1 g
      (serializeInterleaved extractIcu sl
        (serializePlaceholder (serializeTextPart extractIcu pid p).2 n sl).2
        (p2 :: parts) names).1 h1 htg ih
    simpa using this

/-- The `pc` projection distributes over concatenation. -/
theorem pcProj_append :
    ∀ (xs ys : List XmlEvent), pcProj (xs ++ ys) = pcProj xs ++ pcProj ys
  | [], _ => rfl
  | XmlEvent.openTag n attrs :: xs, ys => by
    by_cases h : n = "pc" <;> simp [pcProj, h, pcProj_append xs ys]
  | XmlEvent.closeTag n :: xs, ys => by
    by_cases h : n = "pc" <;> simp [pcProj, h, pcProj_append xs ys]
  | XmlEvent.selfCloseTag n attrs :: xs, ys => by
    simp [pcProj, pcProj_append xs ys]
  | XmlEvent.text s :: xs, ys => by simp [pcProj, pcProj_append xs ys]

/-- The `START_`/`CLOSE_` projection distributes over concatenation. -/
theorem scProj_append :
    ∀ (xs ys : List String), scProj (xs ++ ys) = scProj xs ++ scProj ys
  | [], _ => rfl
  | n :: xs, ys => by
    by_cases h1 : strStartsWith n "START_"
    · simp [scProj, h1, scProj_append xs ys]
    · by_cases h2 : strStartsWith n "CLOSE_" <;>
        simp [scProj, h1, h2, scProj_append xs ys]

/-- One-step form of the `START_`/`CLOSE_` projection. -/
theorem scProj_cons (n : String) (l : List String) :
    scProj (n :: l) = scProj [n] ++ scProj l := by
  by_cases h1 : strStartsWith n "START_"
  · simp [scProj, h1]
  · by_cases h2 : strStartsWith n "CLOSE_" <;> simp [scProj, h1, h2]

/-- A serialized placeholder's `pc` structure is exactly the placeholder
name's `START_`/`CLOSE_` structure: `START_*` opens a `<pc>`, `CLOSE_*`
closes one, anything else contributes no `pc` tag. -/
theorem ph_pcProj (pid : Nat) (n : String)
    (sl : Option (List (String × Option SourceLocation))) :
    pcProj (serializePlaceholder pid n sl).1 = scProj [n] := by
  by_cases h1 : strStartsWith n "START_"
  · simp only [serializePlaceholder, h1, if_true]
    simp only [pcProj, scProj, h1]
    simp
  · by_cases h2 : strStartsWith n "CLOSE_" <;>
      · simp only [serializePlaceholder, h1, h2]
        simp only [pcProj, scProj, h1, h2]
        simp

/-- The `pc` projection skips text events. -/
theorem pcProj_text (s : String) (l : List XmlEvent) :
    pcProj (XmlEvent.text s :: l) = pcProj l := rfl

/-- The pieces loop's `pc` structure is the `START_`/`CLOSE_` structure of
the ICU placeholders it emits. -/
theorem textPieces_pcProj :
    ∀ (ps : List String) (pid : Nat),
      pcProj (serializeTextPieces pid ps).1 = scProj (piecePhs ps)
  | [], _ => rfl
  | [p], pid => by simp [serializeTextPieces, piecePhs, pcProj, scProj]
  | [p, q], pid => by
    show pcProj (XmlEvent.text p :: (serializePlaceholder pid q none).1 ++
      [XmlEvent.text q]) = scProj (piecePhs [p, q])
    have hp : piecePhs [p, q] = [q] := rfl
    rw [hp, pcProj_append, pcProj_text, ph_pcProj pid q none,
      show pcProj [XmlEvent.text q] = [] from rfl, List.append_nil]
  | p :: q :: r :: rest, pid => by
    have ih := textPieces_pcProj (r :: rest) (serializePlaceholder pid q none).2
    show pcProj (XmlEvent.text p :: (serializePlaceholder pid q none).1 ++
      (serializeTextPieces (serializePlaceholder pid q none).2 (r :: rest)).1) =
      scProj (piecePhs (p :: q :: r :: rest))
    have hp : piecePhs (p :: q :: r :: rest) = q :: piecePhs (r :: rest) := rfl
    rw [hp, scProj_cons q (piecePhs (r :: rest)), pcProj_append, pcProj_text,
      ph_pcProj pid q none, ih]

/-- The message loop's `pc` structure is the `START_`/`CLOSE_` structure of
all the placeholders it emits, in emission order. -/
theorem interleaved_pcProj (extractIcu : String → List String)
    (sl : Option (List (String × Option SourceLocation))) :
    ∀ (parts names : List String) (pid : Nat),
      pcProj (serializeInterleaved extractIcu sl pid parts names).1 =
        scProj (emittedPlaceholders extractIcu parts names)
  | [], _, _ => rfl
  | [p], [], pid => textPieces_pcProj (extractIcu p) pid
  | [p], n :: names, pid => textPieces_pcProj (extractIcu p) pid
  | p :: p2 :: parts, [], pid => textPieces_pcProj (extractIcu p) pid
  | p :: p2 :: parts, n :: names, pid => by
    have ih := interleaved_pcProj extractIcu sl (p2 :: parts) names
      (serializePlaceholder (serializeTextPart extractIcu pid p).2 n sl).2
    show pcProj ((serializeTextPart extractIcu pid p).1 ++
      (serializePlaceholder (serializeTextPart extractIcu pid p).2 n sl).1 ++
      (serializeInterleaved extractIcu sl
        (serializePlaceholder (serializeTextPart extractIcu pid p).2 n sl).2
        (p2 :: parts) names).1) =
      scProj (emittedPlaceholders extractIcu (p :: p2 :: parts) (n :: names))
    have hp : emittedPlaceholders extractIcu (p :: p2 :: parts) (n :: names) =
      piecePhs (extractIcu p) ++
        n :: emittedPlaceholders extractIcu (p2 :: parts) names := rfl
    rw [hp, scProj_append, scProj_cons n (emittedPlaceholders extractIcu
      (p2 :: parts) names)]
    have htp : pcProj (serializeTextPart extractIcu pid p).1 =
        scProj (piecePhs (extractIcu p)) :=
      textPieces_pcProj (extractIcu p) pid
    have hph : pcProj (serializePlaceholder
        (serializeTextPart extractIcu pid p).2 n sl).1 = scProj [n] :=
      ph_pcProj (serializeTextPart extractIcu pid p).2 n sl
    rw [pcProj_append, pcProj_append, htp, hph, ih, List.append_assoc]

/-- C8: serializer output shape: for every message (under the parsed-message
invariant, and with an ICU splitter that returns at least one piece) the
serialized message alternates text parts and placeholder tags strictly,
starting and ending with a text part; its `<pc>` open and close tags are
exactly the image of the emitted `START_*` and `CLOSE_*` placeholders in
order, so whenever the message's `START_*`/`CLOSE_*` placeholders are
balanced the `<pc>` tags of the output are balanced. -/
theorem serializeMessage_alternation_balanced
    (extractIcu : String → List String) (message : ParsedMessage)
    (hicu : ∀ t, extractIcu t ≠ [])
    (hlen : message.messageParts.length = message.placeholderNames.length + 1) :
    altTT (serializeMessage extractIcu message) = true ∧
    pcProj (serializeMessage extractIcu message) =
      scProj (emittedPlaceholders extractIcu message.messageParts
        message.placeholderNames) ∧
    (balanced (scProj (emittedPlaceholders extractIcu message.messageParts
        message.placeholderNames)) = true →
      balanced (pcProj (serializeMessage extractIcu message)) = true) := by
  have h2 : pcProj (serializeMessage extractIcu message) =
      scProj (emittedPlaceholders extractIcu message.messageParts
        message.placeholderNames) :=
    interleaved_pcProj extractIcu message.substitutionLocations
      message.messageParts message.placeholderNames 0
  exact ⟨interleaved_alt extractIcu message.substitutionLocations hicu
      message.messageParts message.placeholderNames 0 hlen,
    h2, fun hb => by rw [h2]; exact hb⟩

/-- Witness for C8 on a concrete message with one `START_*`/`CLOSE_*`
pair. -/
theorem serializeMessage_alternation_balanced_witness :
    (∀ t : String, ([t] : List String) ≠ []) ∧
    wMsg.messageParts.length = wMsg.placeholderNames.length + 1 ∧
    altTT (serializeMessage (fun t => [t]) wMsg) = true ∧
    balanced (pcProj (serializeMessage (fun t => [t]) wMsg)) = true :=
  have hicu : ∀ t : String, ([t] : List String) ≠ [] := fun _ => by simp
  have hlen : wMsg.messageParts.length = wMsg.placeholderNames.length + 1 := rfl
  have h := serializeMessage_alternation_balanced (fun t => [t]) wMsg hicu hlen
  ⟨hicu, hlen, h.1, h.2.2 (by decide)⟩

/-- C9, counterexample: on a message whose only legacy id matching the
length-and-digits filter is the empty string, the claim's reading returns
that empty legacy id, but the code's `getMessageId` returns the canonical
`message.id`, because the found empty string is falsy in JavaScript and the
`||` chain falls through. -/
theorem getMessageId_empty_legacy_counterexample :
    isLegacyXliff2Id "" = true ∧
    getMessageIdClaimed true cexMessage = "" ∧
    getMessageId true cexMessage = "canonical" ∧
    getMessageIdClaimed true cexMessage ≠ getMessageId true cexMessage := by
  refine ⟨by decide, rfl, rfl, ?_⟩
  intro h
  exact absurd h (by decide)

/-- C9, amended: `getMessageId` returns a defined non-empty `customId`;
otherwise, when `useLegacyIds` is set and `legacyIds` is defined, it returns
the first id of at most 20 characters consisting only of decimal digits
provided that id is non-empty; in every other case (no such id, or the first
such id is the empty string) it returns the canonical `message.id`. -/
theorem getMessageId_characterization (useLegacyIds : Bool)
    (message : ParsedMessage) :
    (∀ c, message.customId = some c → c ≠ "" →
      getMessageId useLegacyIds message = c) ∧
    ((message.customId = none ∨ message.customId = some "") →
      ((useLegacyIds = false → getMessageId useLegacyIds message = message.id) ∧
       (message.legacyIds = none →
         getMessageId useLegacyIds message = message.id) ∧
       (∀ ids, message.legacyIds = some ids →
         (ids.find? isLegacyXliff2Id = none →
           getMessageId useLegacyIds message = message.id) ∧
         (∀ found, ids.find? isLegacyXliff2Id = some found →
           useLegacyIds = true →
           (found ≠ "" → getMessageId useLegacyIds message = found) ∧
           (found = "" →
             getMessageId useLegacyIds message = message.id))))) := by
  constructor
  · intro c hc hne
    simp [getMessageId, hc, hne]
  · intro hcust
    have hbase : getMessageId useLegacyIds message =
        getMessageIdLegacy useLegacyIds message := by
      rcases hcust with h | h <;> simp [getMessageId, h]
    refine ⟨?_, ?_, ?_⟩
    · intro hu
      rw [hbase]
      simp [getMessageIdLegacy, hu]
    · intro hl
      rw [hbase]
      cases useLegacyIds <;> simp [getMessageIdLegacy, hl]
    · intro ids hids
      constructor
      · intro hfind
        rw [hbase]
        cases useLegacyIds <;> simp [getMessageIdLegacy, hids, hfind]
      · intro found hfound hu
        constructor
        · intro hne
          rw [hbase]
          simp [getMessageIdLegacy, hu, hids, hfound, hne]
        · intro heq
          rw [hbase]
          simp [getMessageIdLegacy, hu, hids, hfound, heq]

/-- Witness for C9's amended characterization on the counterexample
message. -/
theorem getMessageId_characterization_witness :
    cexMessage.customId = none ∧ cexMessage.legacyIds = some [""] ∧
    List.find? isLegacyXliff2Id [""] = some "" ∧
    getMessageId true cexMessage = cexMessage.id :=
  ⟨rfl, rfl, by decide,
    ((((getMessageId_characterization true cexMessage).2 (Or.inl rfl)).2.2
      [""] rfl).2 "" (by decide) rfl).2 rfl⟩

/-- The unit-id extraction distributes over concatenation. -/
theorem unitIds_append :
    ∀ (xs ys : List XmlEvent), unitIds (xs ++ ys) = unitIds xs ++ unitIds ys
  | [], _ => rfl
  | XmlEvent.openTag n attrs :: xs, ys => by
    by_cases h : n = "unit" <;> simp [unitIds, h, unitIds_append xs ys]
  | XmlEvent.closeTag n :: xs, ys => by simp [unitIds, unitIds_append xs ys]
  | XmlEvent.selfCloseTag n attrs :: xs, ys => by
    simp [unitIds, unitIds_append xs ys]
  | XmlEvent.text s :: xs, ys => by simp [unitIds, unitIds_append xs ys]

/-- The unit count distributes over concatenation. -/
theorem countUnits_append :
    ∀ (xs ys : List XmlEvent),
      countUnits (xs ++ ys) = countUnits xs + countUnits ys
  | [], _ => by simp [countUnits]
  | XmlEvent.openTag n attrs :: xs, ys => by
    by_cases h : n = "unit" <;>
      simp [countUnits, h, countUnits_append xs ys, Nat.add_assoc]
  | XmlEvent.closeTag n :: xs, ys => by simp [countUnits, countUnits_append xs ys]
  | XmlEvent.selfCloseTag n attrs :: xs, ys => by
    simp [countUnits, countUnits_append xs ys]
  | XmlEvent.text s :: xs, ys => by simp [countUnits, countUnits_append xs ys]

/-- A stream without `<unit>` opening tags contributes no unit ids and no
unit count. -/
theorem noUnit_nil_ids :
    ∀ (evs : List XmlEvent), (∀ e, e ∈ evs → noUnitEv e = true) →
      unitIds evs = [] ∧ countUnits evs = 0
  | [], _ => ⟨rfl, rfl⟩
  | e :: evs, h => by
    have h0 := h e (List.mem_cons_self e evs)
    have ih := noUnit_nil_ids evs (fun x hx => h x (List.mem_cons_of_mem e hx))
    cases e with
    | openTag n attrs =>
      have hn : ¬ n = "unit" := by simpa [noUnitEv] using h0
      simp [unitIds, countUnits, hn, ih.1, ih.2]
    | closeTag n => simpa [unitIds, countUnits] using ih
    | selfCloseTag n attrs => simpa [unitIds, countUnits] using ih
    | text s => simpa [unitIds, countUnits] using ih

/-- A serialized placeholder never opens a `<unit>`. -/
theorem ph_noUnit (pid : Nat) (n : String)
    (sl : Option (List (String × Option SourceLocation))) :
    ∀ e, e ∈ (serializePlaceholder pid n sl).1 → noUnitEv e = true := by
  intro e he
  by_cases h1 : strStartsWith n "START_"
  · simp only [serializePlaceholder, h1, if_true, List.mem_singleton] at he
    subst he
    rfl
  · by_cases h2 : strStartsWith n "CLOSE_"
    · simp only [serializePlaceholder, h1, h2] at he
      have he2 : e = XmlEvent.closeTag "pc" := List.mem_singleton.mp he
      rw [he2]
      rfl
    · simp only [serializePlaceholder, h1, h2] at he
      have he2 := List.mem_singleton.mp he
      rw [he2]
      rfl

/-- The pieces loop never opens a `<unit>`. -/
theorem textPieces_noUnit :
    ∀ (ps : List String) (pid : Nat) (e : XmlEvent),
      e ∈ (serializeTextPieces pid ps).1 → noUnitEv e = true
  | [], _, e, he => by simp [serializeTextPieces] at he
  | [p], _, e, he => by
    simp only [serializeTextPieces, List.mem_singleton] at he
    subst he
    rfl
  | [p, q], pid, e, he => by
    have he2 : e ∈ (XmlEvent.text p :: (serializePlaceholder pid q none).1) ++
        [XmlEvent.text q] := he
    rcases List.mem_append.mp he2 with h | h
    · rcases List.mem_cons.mp h with h0 | h0
      · subst h0; rfl
      · exact ph_noUnit pid q none e h0
    · rw [List.mem_singleton] at h
      subst h
      rfl
  | p :: q :: r :: rest, pid, e, he => by
    have he2 : e ∈ (XmlEvent.text p :: (serializePlaceholder pid q none).1) ++
        (serializeTextPieces (serializePlaceholder pid q none).2 (r :: rest)).1 :=
      he
    rcases List.mem_append.mp he2 with h | h
    · rcases List.mem_cons.mp h with h0 | h0
      · subst h0; rfl
      · exact ph_noUnit pid q none e h0
    · exact textPieces_noUnit (r :: rest) (serializePlaceholder pid q none).2 e h

/-- The message loop never opens a `<unit>`. -/
theorem interleaved_noUnit (extractIcu : String → List String)
    (sl : Option (List (String × Option SourceLocation))) :
    ∀ (parts names : List String) (pid : Nat) (e : XmlEvent),
      e ∈ (serializeInterleaved extractIcu sl pid parts names).1 →
      noUnitEv e = true
  | [], _, _, e, he => by simp [serializeInterleaved] at he
  | [p], _, pid, e, he => textPieces_noUnit (extractIcu p) pid e he
  | p :: p2 :: parts, [], pid, e, he => textPieces_noUnit (extractIcu p) pid e he
  | p :: p2 :: parts, n :: names, pid, e, he => by
    have he2 : e ∈ ((serializeTextPart extractIcu pid p).1 ++
        (serializePlaceholder (serializeTextPart extractIcu pid p).2 n sl).1) ++
        (serializeInterleaved extractIcu sl
          (serializePlaceholder (serializeTextPart extractIcu pid p).2 n sl).2
          (p2 :: parts) names).1 := he
    rcases List.mem_append.mp he2 with h | h
    · rcases List.mem_append.mp h with h0 | h0
      · exact textPieces_noUnit (extractIcu p) pid e h0
      · exact ph_noUnit (serializeTextPart extractIcu pid p).2 n sl e h0
    · exact interleaved_noUnit extractIcu sl (p2 :: parts) names
        (serializePlaceholder (serializeTextPart extractIcu pid p).2 n sl).2 e h

/-- A note element never opens a `<unit>`. -/
theorem note_noUnit (nm v : String) :
    ∀ e, e ∈ serializeNote nm v → noUnitEv e = true := by
  intro e he
  simp [serializeNote] at he
  rcases he with h | h | h <;> subst h <;> rfl

/-- The notes block never opens a `<unit>`. -/
theorem notes_noUnit (rel : String → String → String) (basePath : String)
    (message : ParsedMessage) :
    ∀ e, e ∈ serializeNotes rel basePath message → noUnitEv e = true := by
  intro e he
  unfold serializeNotes at he
  by_cases hc : message.meaning ≠ "" ∨ message.description ≠ ""
  · rw [if_pos hc] at he
    rcases List.mem_cons.mp he with h0 | h0
    · subst h0; rfl
    · rcases List.mem_append.mp h0 with h1 | h1
      · rcases List.mem_append.mp h1 with h2 | h2
        · rcases List.mem_append.mp h2 with h3 | h3
          · cases hml : message.location with
            | none => rw [hml] at h3; simp at h3
            | some loc => rw [hml] at h3; exact note_noUnit _ _ e h3
          · by_cases hd : message.description ≠ ""
            · rw [if_pos hd] at h3; exact note_noUnit _ _ e h3
            · rw [if_neg hd] at h3; simp at h3
        · by_cases hm : message.meaning ≠ ""
          · rw [if_pos hm] at h2; exact note_noUnit _ _ e h2
          · rw [if_neg hm] at h2; simp at h2
      · rw [List.mem_singleton] at h1
        subst h1
        rfl
  · rw [if_neg hc] at he
    simp at he

/-- One serialized unit contributes exactly one `<unit>` opening tag,
carrying the given id. -/
theorem unit_unitIds (extractIcu : String → List String)
    (rel : String → String → String) (basePath : String) (id : String)
    (message : ParsedMessage) :
    unitIds (serializeUnit extractIcu rel basePath id message) = [id] ∧
    countUnits (serializeUnit extractIcu rel basePath id message) = 1 := by
  have hrest : ∀ e, e ∈ (serializeNotes rel basePath message ++
      [XmlEvent.openTag "segment" [], XmlEvent.openTag "source" []] ++
      serializeMessage extractIcu message ++
      [XmlEvent.closeTag "source", XmlEvent.closeTag "segment",
        XmlEvent.closeTag "unit"]) → noUnitEv e = true := by
    intro e he
    rcases List.mem_append.mp he with h | h
    · rcases List.mem_append.mp h with h0 | h0
      · rcases List.mem_append.mp h0 with h1 | h1
        · exact notes_noUnit rel basePath message e h1
        · simp at h1
          rcases h1 with h2 | h2
          · rw [h2]; rfl
          · rw [h2]; rfl
      · exact interleaved_noUnit extractIcu message.substitutionLocations
          message.messageParts message.placeholderNames 0 e h0
    · simp at h
      rcases h with h2 | h2 | h2 <;> (rw [h2]; rfl)
  obtain ⟨h1, h2⟩ := noUnit_nil_ids _ hrest
  have hhead : ∀ (l : List XmlEvent),
      unitIds (XmlEvent.openTag "unit" [("id", id)] :: l) = id :: unitIds l := by
    intro l
    simp [unitIds]
  have hchead : ∀ (l : List XmlEvent),
      countUnits (XmlEvent.openTag "unit" [("id", id)] :: l) =
        1 + countUnits l := by
    intro l
    simp [countUnits]
  constructor
  · show unitIds (XmlEvent.openTag "unit" [("id", id)] ::
      (serializeNotes rel basePath message ++
        [XmlEvent.openTag "segment" [], XmlEvent.openTag "source" []] ++
        serializeMessage extractIcu message ++
        [XmlEvent.closeTag "source", XmlEvent.closeTag "segment",
          XmlEvent.closeTag "unit"])) = [id]
    rw [hhead, h1]
  · show countUnits (XmlEvent.openTag "unit" [("id", id)] ::
      (serializeNotes rel basePath message ++
        [XmlEvent.openTag "segment" [], XmlEvent.openTag "source" []] ++
        serializeMessage extractIcu message ++
        [XmlEvent.closeTag "source", XmlEvent.closeTag "segment",
          XmlEvent.closeTag "unit"])) = 1
    rw [hchead, h2]

/-- The serializer loop renders the first-occurrence ids, in order, one
`<unit>` each. -/
theorem loop_unitIds (extractIcu : String → List String)
    (rel : String → String → String) (basePath : String) (useLegacyIds : Bool) :
    ∀ (msgs : List ParsedMessage) (seen : List String),
      unitIds (serializeLoop extractIcu rel basePath useLegacyIds seen msgs) =
        seenFilter seen (msgs.map (getMessageId useLegacyIds)) ∧
      countUnits (serializeLoop extractIcu rel basePath useLegacyIds seen msgs) =
        (seenFilter seen (msgs.map (getMessageId useLegacyIds))).length
  | [], seen => ⟨rfl, rfl⟩
  | m :: ms, seen => by
    have ih1 := loop_unitIds extractIcu rel basePath useLegacyIds ms seen
    have ih2 := loop_unitIds extractIcu rel basePath useLegacyIds ms
      (getMessageId useLegacyIds m :: seen)
    have hu := unit_unitIds extractIcu rel basePath
      (getMessageId useLegacyIds m) m
    by_cases hmem : getMessageId useLegacyIds m ∈ seen
    · constructor <;>
        simp [serializeLoop, seenFilter, hmem, ih1.1, ih1.2]
    · constructor <;>
        simp [serializeLoop, seenFilter, hmem, unitIds_append, countUnits_append,
          hu.1, hu.2, ih2.1, ih2.2, Nat.add_comm]

/-- Skipping later duplicate messages before serializing changes nothing. -/
theorem loop_filter (extractIcu : String → List String)
    (rel : String → String → String) (basePath : String) (useLegacyIds : Bool) :
    ∀ (msgs : List ParsedMessage) (seen : List String),
      serializeLoop extractIcu rel basePath useLegacyIds seen msgs =
        serializeLoop extractIcu rel basePath useLegacyIds seen
          (msgFilter useLegacyIds seen msgs)
  | [], seen => rfl
  | m :: ms, seen => by
    by_cases hmem : getMessageId useLegacyIds m ∈ seen
    · simp [serializeLoop, msgFilter, hmem,
        loop_filter extractIcu rel basePath useLegacyIds ms seen]
    · simp [serializeLoop, msgFilter, hmem,
        loop_filter extractIcu rel basePath useLegacyIds ms
          (getMessageId useLegacyIds m :: seen)]

/-- Membership in the first-occurrence filter. -/
theorem seenFilter_mem :
    ∀ (l seen : List String) (x : String),
      x ∈ seenFilter seen l ↔ (x ∈ l ∧ x ∉ seen)
  | [], seen, x => by simp [seenFilter]
  | y :: ys, seen, x => by
    by_cases hy : y ∈ seen
    · rw [show seenFilter seen (y :: ys) = seenFilter seen ys from by
        simp [seenFilter, hy]]
      rw [seenFilter_mem ys seen x]
      constructor
      · rintro ⟨hx, hns⟩
        exact ⟨List.mem_cons_of_mem y hx, hns⟩
      · rintro ⟨hx, hns⟩
        rcases List.mem_cons.mp hx with h | h
        · subst h; exact absurd hy hns
        · exact ⟨h, hns⟩
    · rw [show seenFilter seen (y :: ys) = y :: seenFilter (y :: seen) ys from by
        simp [seenFilter, hy]]
      constructor
      · intro hx
        rcases List.mem_cons.mp hx with h | h
        · subst h
          exact ⟨List.mem_cons_self _ _, hy⟩
        · obtain ⟨h1, h2⟩ := (seenFilter_mem ys (y :: seen) x).mp h
          exact ⟨List.mem_cons_of_mem y h1,
            fun hs => h2 (List.mem_cons_of_mem y hs)⟩
      · rintro ⟨hx, hns⟩
        rcases List.mem_cons.mp hx with h | h
        · subst h
          exact List.mem_cons_self x _
        · by_cases hxy : x = y
          · subst hxy
            exact List.mem_cons_self x _
          · refine List.mem_cons_of_mem y
              ((seenFilter_mem ys (y :: seen) x).mpr ⟨h, ?_⟩)
            intro hs
            rcases List.mem_cons.mp hs with h2 | h2
            · exact hxy h2
            · exact hns h2

/-- The first-occurrence filter has no duplicates. -/
theorem seenFilter_nodup :
    ∀ (l seen : List String), (seenFilter seen l).Nodup
  | [], _ => List.nodup_nil
  | y :: ys, seen => by
    by_cases hy : y ∈ seen
    · rw [show seenFilter seen (y :: ys) = seenFilter seen ys from by
        simp [seenFilter, hy]]
      exact seenFilter_nodup ys seen
    · rw [show seenFilter seen (y :: ys) = y :: seenFilter (y :: seen) ys from by
        simp [seenFilter, hy]]
      refine List.nodup_cons.mpr ⟨?_, seenFilter_nodup ys (y :: seen)⟩
      intro hmem
      exact ((seenFilter_mem ys (y :: seen) y).mp hmem).2
        (List.mem_cons_self y seen)

/-- C10: duplicate suppression: `serialize` emits exactly one `<unit>` per
distinct message id — the emitted unit ids are the first occurrence of each
id in message order, without duplicates, covering exactly the ids of the
input; dropping every later message that maps to an already-rendered id
leaves the output unchanged. -/
theorem serialize_duplicate_suppression (extractIcu : String → List String)
    (rel : String → String → String) (sourceLocale basePath : String)
    (useLegacyIds : Bool) (messages : List ParsedMessage) :
    unitIds (serialize extractIcu rel sourceLocale basePath useLegacyIds
        messages) =
      seenFilter [] (messages.map (getMessageId useLegacyIds)) ∧
    countUnits (serialize extractIcu rel sourceLocale basePath useLegacyIds
        messages) =
      (seenFilter [] (messages.map (getMessageId useLegacyIds))).length ∧
    (seenFilter [] (messages.map (getMessageId useLegacyIds))).Nodup ∧
    (∀ x, x ∈ seenFilter [] (messages.map (getMessageId useLegacyIds)) ↔
      x ∈ messages.map (getMessageId useLegacyIds)) ∧
    serialize extractIcu rel sourceLocale basePath useLegacyIds messages =
      serialize extractIcu rel sourceLocale basePath useLegacyIds
        (msgFilter useLegacyIds [] messages) := by
  have hloop := loop_unitIds extractIcu rel basePath useLegacyIds messages []
  refine ⟨?_, ?_, seenFilter_nodup _ _, ?_, ?_⟩
  · have h1 : unitIds (serialize extractIcu rel sourceLocale basePath
        useLegacyIds messages) =
        unitIds (serializeLoop extractIcu rel basePath useLegacyIds []
          messages) := by
      simp [serialize, unitIds, unitIds_append]
    rw [h1, hloop.1]
  · have h2 : countUnits (serialize extractIcu rel sourceLocale basePath
        useLegacyIds messages) =
        countUnits (serializeLoop extractIcu rel basePath useLegacyIds []
          messages) := by
      simp [serialize, countUnits, countUnits_append]
    rw [h2, hloop.2]
  · intro x
    rw [seenFilter_mem]
    simp
  · have h5 := loop_filter extractIcu rel basePath useLegacyIds messages []
    simp [serialize, h5]

/-- Witness for C7 on the `<div class="foo"></div>` forest at position 6. -/
theorem findNodeAtPosition_deterministic_pure_witness :
    WFList w1Forest ∧
    visitAccList 6 (visitAccList 6 none w1Forest) w1Forest =
      visitAccList 6 none w1Forest ∧
    visitAccList 6 none w1Forest = findNodeAtPosition w1Forest 6 :=
  ⟨w1_wf, findNodeAtPosition_deterministic_pure.2.1 w1Forest 6 none,
    findNodeAtPosition_deterministic_pure.2.2 w1Forest 6 w1_wf⟩
